import Mathlib

/-!
# Verification of the biternal reversible state layer

Shallow embedding of the `core/state` package of `foreverbit/biternal`
(key/type scheme, pod state object, journal, slim-pod snapshot encoding,
and the read-only dump iterator), with theorems checking the repository's
natural-language specification against the code.

Bytes are modelled as `Nat` (Go `byte` values `< 256` where it matters),
byte slices as `List Nat`, `*big.Int` block numbers as `Nat` (wrapped in
`Option` where the Go pointer can be nil), and Go maps as association
lists, so that deletion of a map slot is observable.
-/

namespace Biternal

/-! ## Byte-level helpers (math/big collaborator)

`natToBytes` models `(*big.Int).Bytes()`: the minimal big-endian byte string
of a non-negative integer, empty for zero.  `bytesToNat` models
`(*big.Int).SetBytes`: big-endian interpretation. -/

/-- Minimal big-endian bytes of `n`; empty for `n = 0` (Go `big.Int.Bytes`). -/
def natToBytes (n : Nat) : List Nat :=
  if h : n = 0 then []
  else
    have : n / 256 < n := Nat.div_lt_self (Nat.pos_of_ne_zero h) (by omega)
    natToBytes (n / 256) ++ [n % 256]

/-- Big-endian interpretation of a byte string (Go `big.Int.SetBytes`). -/
def bytesToNat (l : List Nat) : Nat :=
  l.foldl (fun acc d => acc * 256 + d) 0

theorem bytesToNat_append_digit (l : List Nat) (d : Nat) :
    bytesToNat (l ++ [d]) = bytesToNat l * 256 + d := by
  simp [bytesToNat, List.foldl_append]

theorem natToBytes_zero : natToBytes 0 = [] := by
  rw [natToBytes]
  simp

theorem natToBytes_pos (n : Nat) (h : n ≠ 0) :
    natToBytes n = natToBytes (n / 256) ++ [n % 256] := by
  rw [natToBytes]
  simp [h]

/-- `SetBytes` inverts `Bytes`: big-endian decode of the minimal encoding. -/
theorem bytesToNat_natToBytes (n : Nat) : bytesToNat (natToBytes n) = n := by
  induction n using Nat.strong_induction_on with
  | _ n ih =>
    rw [natToBytes]
    by_cases h : n = 0
    · simp [h, bytesToNat]
    · have hlt : n / 256 < n := Nat.div_lt_self (Nat.pos_of_ne_zero h) (by omega)
      simp only [h, dite_false]
      rw [bytesToNat_append_digit, ih (n / 256) hlt]
      omega

/-- The minimal big-endian encoding never starts with a zero byte. -/
theorem natToBytes_no_leading_zero (n : Nat) (h : 0 < n) :
    (natToBytes n).head? ≠ some 0 := by
  induction n using Nat.strong_induction_on with
  | _ n ih =>
    have hne : n ≠ 0 := Nat.pos_iff_ne_zero.mp h
    rw [natToBytes_pos n hne]
    by_cases hq : n / 256 = 0
    · have hmod : n % 256 = n := by omega
      rw [hq, natToBytes_zero]
      simp [hmod]
      omega
    · have hlt : n / 256 < n := Nat.div_lt_self h (by omega)
      have ihq := ih (n / 256) hlt (Nat.pos_of_ne_zero hq)
      cases hh : (natToBytes (n / 256)) with
      | nil =>
        exact absurd (hh ▸ bytesToNat_natToBytes (n / 256)) (by simp [bytesToNat]; omega)
      | cons a t =>
        rw [hh] at ihq
        simp only [hh, List.cons_append, List.head?_cons]
        simpa using ihq

theorem natToBytes_nonzero_ne_nil (n : Nat) (h : 0 < n) : natToBytes n ≠ [] := by
  intro hnil
  have := bytesToNat_natToBytes n
  rw [hnil] at this
  simp [bytesToNat] at this
  omega

/-- Length bound: a value below `256 ^ k` needs at most `k` bytes. -/
theorem natToBytes_length_le (k : Nat) : ∀ n : Nat, n < 256 ^ k → (natToBytes n).length ≤ k := by
  induction k with
  | zero =>
    intro n hn
    have : n = 0 := by simpa using hn
    simp [this, natToBytes]
  | succ k ih =>
    intro n hn
    rw [natToBytes]
    by_cases h : n = 0
    · simp [h]
    · simp only [h, dite_false, List.length_append, List.length_cons, List.length_nil]
      have : n / 256 < 256 ^ k := by
        rw [Nat.div_lt_iff_lt_mul (by omega)]
        calc n < 256 ^ (k + 1) := hn
          _ = 256 ^ k * 256 := by ring
      have := ih (n / 256) this
      omega

/-! ## Addresses (common.Address collaborator)

`common.Address` is a fixed 20-byte array; `common.BytesToAddress` keeps the
last 20 bytes and left-pads with zero bytes. -/

/-- Length of `common.Address` in bytes. -/
def AddressLength : Nat := 20

/-- A `common.Address`: exactly `AddressLength` bytes. -/
def Address : Type := {l : List Nat // l.length = AddressLength}

instance : DecidableEq Address := fun a b =>
  decidable_of_iff (a.val = b.val) Subtype.ext_iff.symm

/-- The byte content produced by `common.BytesToAddress`: last 20 bytes of
the input, left-padded with zeros. -/
def bytesToAddressList (b : List Nat) : List Nat :=
  let b' := if AddressLength < b.length then b.drop (b.length - AddressLength) else b
  List.replicate (AddressLength - b'.length) 0 ++ b'

theorem bytesToAddressList_length (b : List Nat) :
    (bytesToAddressList b).length = AddressLength := by
  unfold bytesToAddressList
  by_cases h : AddressLength < b.length
  · simp [h]
    omega
  · simp [h]
    omega

/-- `common.BytesToAddress`. -/
def BytesToAddress (b : List Nat) : Address :=
  ⟨bytesToAddressList b, bytesToAddressList_length b⟩

/-- On an exactly-20-byte input, `BytesToAddress` is the identity. -/
theorem BytesToAddress_val (a : Address) : BytesToAddress a.val = a := by
  apply Subtype.ext
  show bytesToAddressList a.val = a.val
  unfold bytesToAddressList
  rw [a.property]
  simp [AddressLength]

/-! ## Key/Type scheme (`core/state/state_type.go`) -/

/-- `StateType`: one discriminating byte for both keys and stored values.
The Go field is named `Prefix`; renamed `pfx` here. -/
structure StateType where
  pfx : Nat
deriving DecidableEq, Repr

/-- `AccountState = StateType{'a'}` (`'a'` = 97). -/
def AccountState : StateType := ⟨97⟩

/-- `PodState = StateType{'p'}` (`'p'` = 112). -/
def PodState : StateType := ⟨112⟩

/-- `stateTypeFromPrefix`: dispatch on the discriminant byte; the Go
`default` branch is `panic("unknown state type")`, modelled as `.error`
with the panic message. -/
def stateTypeFromPfx (b : Nat) : Except String StateType :=
  if b = 97 then .ok AccountState
  else if b = 112 then .ok PodState
  else .error "unknown state type"

/-- `StateType.PreKey`: the key before hashing, discriminant byte first. -/
def StateType.PreKey (st : StateType) (key : List Nat) : List Nat :=
  st.pfx :: key

/-- `StateType.Value`: a stored value, discriminant byte first. -/
def StateType.Value (st : StateType) (value : List Nat) : List Nat :=
  st.pfx :: value

/-- `accountKey(addr) = AccountState.PreKey(addr.Bytes())`. -/
def accountKey (addr : Address) : List Nat :=
  AccountState.PreKey addr.val

/-- `keyToAddress(key) = common.BytesToAddress(key[1:])`. -/
def keyToAddress (key : List Nat) : Address :=
  BytesToAddress (key.drop 1)

/-- `podKey(block) = PodState.PreKey(block.Bytes())`. -/
def podKey (block : Nat) : List Nat :=
  PodState.PreKey (natToBytes block)

/-- `keyToBlock(key) = new(big.Int).SetBytes(key[1:])`. -/
def keyToBlock (key : List Nat) : Nat :=
  bytesToNat (key.drop 1)

/-! ## Pod state object (`podObject`, `types.StatePod`)

The hash collaborator (`crypto.Keccak256Hash`) is external to the spec's
scope; it is modelled as the identity on pre-key bytes, which no claim's
statement depends on.  The owning `*StateDB` back-pointer is modelled as a
numeric context identifier. -/

/-- Modelled hash collaborator over pre-key bytes (`crypto.Keccak256Hash`
is external; no claim depends on actual hash values). -/
def hashBytes (b : List Nat) : List Nat := b

/-- `podKeyHash(block) = Keccak256Hash(podKey(block))`. -/
def podKeyHash (block : Nat) : List Nat := hashBytes (podKey block)

/-- `types.StatePod`: the wire schema of a pod. -/
structure StatePod where
  GasLimit : Nat
  CurrentGasLimit : Nat
  Passengers : List Address
deriving DecidableEq

/-- `podObject`: the pod state object.  `block` is an `Option` because the
Go field is a nillable `*big.Int`; `db` is the owning-context identifier. -/
structure podObject where
  block : Option Nat
  podHash : List Nat
  data : StatePod
  db : Nat
  executed : Bool
  deleted : Bool
deriving DecidableEq

/-- `newPodObject`: constructs a pod object; a zero `GasLimit` in the input
data is replaced by the 1,000,000 default. -/
def newPodObject (db : Nat) (block : Nat) (data : StatePod) : podObject :=
  let data' := if data.GasLimit = 0 then { data with GasLimit := 1000000 } else data
  { block := some block
    podHash := podKeyHash block
    data := data'
    db := db
    executed := false
    deleted := false }

/-- `podObject.Empty() = (o.block == nil && o.data.GasLimit == 0)`. -/
def podObject.Empty (o : podObject) : Bool :=
  o.block.isNone && o.data.GasLimit == 0

/-- `podObject.DeepCopy`: the source is a TODO stub that returns the nil
interface value, modelled as `none`. -/
def podObject.DeepCopy (_o : podObject) (_db : Nat) : Option podObject :=
  none

/-! ## Journal (`core/state/journal.go`)

`journalEntry` is an interface: each entry carries a revert action over the
owning `*StateDB` and an optional dirtied key hash.  The `StateDB` type is
not part of this repository slice, so the journal is parametrised by the
state type `σ`; key hashes are modelled as `Nat`.  The Go
`map[common.Hash]int` is modelled as an association list with `Int` values
so that removal of a map slot is observable (and the Go behaviour of
decrementing an absent slot to `-1` is representable). -/

/-- A `journalEntry`: a revert action on the state plus the optional
dirtied key hash. -/
structure JournalEntry (σ : Type) where
  revert : σ → σ
  dirtied : Option Nat

/-- Go map read with zero default: `j.dirties[h]`. -/
def getD : List (Nat × Int) → Nat → Int
  | [], _ => 0
  | p :: rest, h => if p.1 = h then p.2 else getD rest h

/-- Whether the map has a slot for `h`. -/
def presentD : List (Nat × Int) → Nat → Bool
  | [], _ => false
  | p :: rest, h => p.1 == h || presentD rest h

/-- Go map write: `j.dirties[h] = v`. -/
def setD : List (Nat × Int) → Nat → Int → List (Nat × Int)
  | [], h, v => [(h, v)]
  | p :: rest, h, v => if p.1 = h then (h, v) :: rest else p :: setD rest h v

/-- Go map slot removal: `delete(j.dirties, h)`. -/
def delD : List (Nat × Int) → Nat → List (Nat × Int)
  | [], _ => []
  | p :: rest, h => if p.1 = h then delD rest h else p :: delD rest h

/-- `j.dirties[h]++`. -/
def incrD (d : List (Nat × Int)) (h : Nat) : List (Nat × Int) :=
  setD d h (getD d h + 1)

/-- `if j.dirties[h]--; j.dirties[h] == 0 { delete(j.dirties, h) }`:
decrement, then remove the slot exactly when it reached zero. -/
def decrDelD (d : List (Nat × Int)) (h : Nat) : List (Nat × Int) :=
  let v := getD d h - 1
  if v = 0 then delD d h else setD d h v

/-- The `journal`: tracked entries plus the dirty-reference-count map. -/
structure Journal (σ : Type) where
  entries : List (JournalEntry σ)
  dirties : List (Nat × Int)

/-- `newJournal()`. -/
def newJournal (σ : Type) : Journal σ :=
  { entries := [], dirties := [] }

/-- `journal.append`: push the entry; if it dirtied a key hash, increment
that hash's reference count. -/
def Journal.append {σ : Type} (j : Journal σ) (e : JournalEntry σ) : Journal σ :=
  { entries := j.entries ++ [e]
    dirties := match e.dirtied with
      | some h => incrD j.dirties h
      | none => j.dirties }

/-- The dirty-map update of one reverted entry. -/
def stepDecr (d : List (Nat × Int)) (o : Option Nat) : List (Nat × Int) :=
  match o with
  | some h => decrDelD d h
  | none => d

/-- One iteration of the revert loop: undo the entry on the state, then
drop its dirty tracking. -/
def revertStep {σ : Type} (p : σ × List (Nat × Int)) (e : JournalEntry σ) :
    σ × List (Nat × Int) :=
  (e.revert p.1, stepDecr p.2 e.dirtied)

/-- `journal.revert(statedb, snapshot)`: process entries from index
`length-1` down to `snapshot` (revert each on the state, then decrement
its dirty count, removing the slot at zero), then truncate the entry
sequence to length `snapshot`. -/
def Journal.revert {σ : Type} (j : Journal σ) (statedb : σ) (snapshot : Nat) :
    Journal σ × σ :=
  let p := ((j.entries.drop snapshot).reverse).foldl revertStep (statedb, j.dirties)
  ({ entries := j.entries.take snapshot, dirties := p.2 }, p.1)

/-- `journal.dirty`: explicitly increment a key hash's dirty count without
appending an entry (the RIPEMD consensus-exception hack). -/
def Journal.dirty {σ : Type} (j : Journal σ) (h : Nat) : Journal σ :=
  { j with dirties := incrD j.dirties h }

/-- `journal.length()`. -/
def Journal.length {σ : Type} (j : Journal σ) : Nat :=
  j.entries.length

/-- A journal operation, for stating whole-history invariants. -/
inductive JOp (σ : Type) where
  | appendOp (e : JournalEntry σ)
  | revertOp (snapshot : Nat)
  | dirtyOp (h : Nat)

/-- Whether the operation is the `dirty` hack. -/
def JOp.isDirtyOp {σ : Type} : JOp σ → Bool
  | .dirtyOp _ => true
  | _ => false

/-- Apply one journal operation to the (state, journal) pair. -/
def applyOp {σ : Type} (p : σ × Journal σ) : JOp σ → σ × Journal σ
  | .appendOp e => (p.1, p.2.append e)
  | .revertOp s =>
    let q := p.2.revert p.1 s
    (q.2, q.1)
  | .dirtyOp h => (p.1, p.2.dirty h)

/-- Run a sequence of journal operations from a fresh journal. -/
def runOps {σ : Type} (statedb : σ) (ops : List (JOp σ)) : σ × Journal σ :=
  ops.foldl applyOp (statedb, newJournal σ)

/-- The number of current entries whose `dirtied()` is hash `h`. -/
def countDirtied {σ : Type} (es : List (JournalEntry σ)) (h : Nat) : Nat :=
  es.countP (fun e => e.dirtied == some h)

/-- The dirty-count map agrees with the multiset of non-nil `dirtied()`
results over the entries: each hash's count is the number of entries that
dirtied it, and a slot is present exactly when that number is positive. -/
def dirtiesMatch {σ : Type} (d : List (Nat × Int)) (es : List (JournalEntry σ)) : Prop :=
  ∀ h : Nat, getD d h = (countDirtied es h : Int) ∧
    (presentD d h = true ↔ 0 < countDirtied es h)

/-! ## Slim-pod snapshot encoding (`core/state/snapshot/pod.go`)

The byte-level encoder is the `rlp` collaborator package, which is outside
this repository slice.  Modelled from the spec: the canonical encoder
collaborator (§6) — "deterministic encode/decode for StatePod and slim-Pod,
as a list of: unsigned 64-bit GasLimit, unsigned 64-bit CurrentGasLimit,
list of fixed-length address byte strings, in that field order" — realised
as the standard RLP item encoding that the generated encoder
(`core/types/gen_pod_rlp.go`, which is in src) targets: one outer list
holding two unsigned-integer byte strings and one inner list of byte
strings.  The decoder accepts a superset of the canonical encodings (it
skips go-ethereum's non-minimality checks), which is irrelevant for
round-trip statements about encoder output. -/

/-- RLP length header: `offset+len` for short payloads, otherwise
`offset+55+len(lenbytes)` followed by the big-endian length bytes. -/
def rlpEncodeLength (len offset : Nat) : List Nat :=
  if len < 56 then [offset + len]
  else
    let lb := natToBytes len
    (offset + 55 + lb.length) :: lb

/-- RLP byte-string item: a single byte below 128 encodes as itself,
anything else gets a string header (offset 128). -/
def rlpEncodeBytes (b : List Nat) : List Nat :=
  if b.length = 1 ∧ b.headI < 128 then b
  else rlpEncodeLength b.length 128 ++ b

/-- RLP unsigned-integer item (`WriteUint64`): the minimal big-endian
bytes, as a byte string. -/
def rlpEncodeNat (n : Nat) : List Nat :=
  rlpEncodeBytes (natToBytes n)

/-- RLP list item over an already-encoded payload (offset 192). -/
def rlpEncodeList (payload : List Nat) : List Nat :=
  rlpEncodeLength payload.length 192 ++ payload

/-- Read one RLP item: returns (is-list, payload, remaining bytes). -/
def rlpReadItem (bs : List Nat) : Option (Bool × List Nat × List Nat) :=
  match bs with
  | [] => none
  | c :: rest =>
    if c < 128 then some (false, [c], rest)
    else if c < 184 then
      if rest.length < c - 128 then none
      else some (false, rest.take (c - 128), rest.drop (c - 128))
    else if c < 192 then
      if rest.length < c - 183 then none
      else if (rest.drop (c - 183)).length < bytesToNat (rest.take (c - 183)) then none
      else some (false,
        (rest.drop (c - 183)).take (bytesToNat (rest.take (c - 183))),
        (rest.drop (c - 183)).drop (bytesToNat (rest.take (c - 183))))
    else if c < 248 then
      if rest.length < c - 192 then none
      else some (true, rest.take (c - 192), rest.drop (c - 192))
    else
      if rest.length < c - 247 then none
      else if (rest.drop (c - 247)).length < bytesToNat (rest.take (c - 247)) then none
      else some (true,
        (rest.drop (c - 247)).take (bytesToNat (rest.take (c - 247))),
        (rest.drop (c - 247)).drop (bytesToNat (rest.take (c - 247))))

/-- Parse a sequence of RLP byte-string items filling a payload (the
passenger list); `fuel` bounds the recursion by the byte length. -/
def parseStringsF (fuel : Nat) (bs : List Nat) : Option (List (List Nat)) :=
  if bs = [] then some []
  else
    match fuel with
    | 0 => none
    | fuel + 1 =>
      match rlpReadItem bs with
      | some (false, payload, rest) =>
        match parseStringsF fuel rest with
        | some items => some (payload :: items)
        | none => none
      | _ => none

/-- Parse all byte-string items of a payload. -/
def parseStrings (bs : List Nat) : Option (List (List Nat)) :=
  parseStringsF bs.length bs

/-- `snapshot.Pod`: slim wire schema, passengers as raw byte strings. -/
structure Pod where
  GasLimit : Nat
  CurrentGasLimit : Nat
  Passengers : List (List Nat)
deriving DecidableEq

/-- `SlimPod`: convert typed passengers to raw byte strings (`p[:]`). -/
def SlimPod (gasLimit currentGasLimit : Nat) (passengers : List Address) : Pod :=
  { GasLimit := gasLimit
    CurrentGasLimit := currentGasLimit
    Passengers := passengers.map (fun p => p.val) }

/-- The canonical encoding of a slim pod: an outer list of the two
unsigned fields followed by the inner passenger list, in field order. -/
def podToBytes (p : Pod) : List Nat :=
  rlpEncodeList (rlpEncodeNat p.GasLimit ++
    (rlpEncodeNat p.CurrentGasLimit ++
      rlpEncodeList ((p.Passengers.map rlpEncodeBytes).flatten)))

/-- `SlimPodRLP(gasLimit, currentGasLimit, passengers)`. -/
def SlimPodRLP (gasLimit currentGasLimit : Nat) (passengers : List Address) : List Nat :=
  podToBytes (SlimPod gasLimit currentGasLimit passengers)

/-- Decode a slim pod: outer list with no trailing bytes, two byte-string
fields, then the passenger list with no bytes left over. -/
def rlpDecodePod (bs : List Nat) : Option Pod :=
  match rlpReadItem bs with
  | some (true, payload, []) =>
    match rlpReadItem payload with
    | some (false, gb, r1) =>
      match rlpReadItem r1 with
      | some (false, cb, r2) =>
        match rlpReadItem r2 with
        | some (true, pp, []) =>
          match parseStrings pp with
          | some items =>
            some { GasLimit := bytesToNat gb
                   CurrentGasLimit := bytesToNat cb
                   Passengers := items }
          | none => none
        | _ => none
      | _ => none
    | _ => none
  | _ => none

/-- `FullPod(data)`: decode a slim pod, `none` modelling the error return. -/
def FullPod (data : List Nat) : Option Pod :=
  rlpDecodePod data

/-- `FullStatePod(data)`: decode a slim pod and convert each raw passenger
byte string back to an address via `common.BytesToAddress`. -/
def FullStatePod (data : List Nat) : Option StatePod :=
  match FullPod data with
  | none => none
  | some pod =>
    some { GasLimit := pod.GasLimit
           CurrentGasLimit := pod.CurrentGasLimit
           Passengers := pod.Passengers.map BytesToAddress }

/-! ## Dump / iteration (`StateDB.DumpToCollector`)

The trie iterator is modelled as the list of (hashed key, stored value)
entries it yields, already positioned at the configured start key.  Go
panics are modelled as the `.error` branch of the result; a panic aborts
the whole dump, so state accumulated before it (such as the missing-
preimage counter incremented just before the nil-slice dereference) is
never observable and is not carried into the error. -/

/-- `DumpConfig`: options controlling the export. -/
structure DumpConfig where
  SkipCode : Bool
  SkipStorage : Bool
  OnlyWithAddresses : Bool
  Start : List Nat
  Max : Nat
deriving DecidableEq

/-- One trie iterator entry: `it.Key` and `it.Value`. -/
structure TrieEntry where
  key : List Nat
  value : List Nat
deriving DecidableEq

/-- Modelled from the spec: `types.StateAccount` (not in src) per §3 —
an account's nonce, balance, storage root and code hash. -/
structure StateAccount where
  Nonce : Nat
  Balance : Int
  Root : List Nat
  CodeHash : List Nat
deriving DecidableEq

/-- `DumpAccount`: the display projection of one account. -/
structure DumpAccount where
  Balance : String
  Nonce : Nat
  Root : List Nat
  CodeHash : List Nat
  Code : List Nat
  Storage : List (List Nat × String)
  SecureKey : List Nat
deriving DecidableEq

/-- `DumpPod`: the display projection of one pod. -/
structure DumpPod where
  GasLimit : Nat
  CurrentGasLimit : Nat
  Passengers : List Address
  SecureKey : List Nat
deriving DecidableEq

/-- One collector callback (`OnAccount` / `OnPod`), in emission order. -/
inductive DumpItem where
  | account (addr : Address) (data : DumpAccount)
  | pod (block : Nat) (data : DumpPod)
deriving DecidableEq

/-- The observable outcome of a completed dump. -/
structure DumpResult where
  items : List DumpItem
  missingPreimages : Nat
  accounts : Nat
  pods : Nat
  nextKey : Option (List Nat)
deriving DecidableEq

/-- Modelled from the spec: the external collaborators the dump reads
(§6) — `trie.GetKey` preimage lookup, the canonical decoders for
`types.StateAccount` and `types.StatePod` (the `rlp` reflection decoder
and `types.StateAccount` are not in src; a failed decode is the fatal
branch), contract-code resolution and storage-slot iteration. -/
structure DumpEnv where
  getKey : List Nat → Option (List Nat)
  decodeAccount : List Nat → Option StateAccount
  decodePod : List Nat → Option StatePod
  codeOf : Address → List Nat
  storageOf : Address → List (List Nat × String)

/-- The outcome of processing one trie entry in the dump loop. -/
inductive DumpStep where
  | panicked (msg : String)
  | skip
  | emitAccount (addr : Address) (data : DumpAccount)
  | emitPod (block : Nat) (data : DumpPod)

/-- Process one trie entry: dispatch on the value's discriminant byte,
decode the payload (panicking on failure), look up the key preimage —
when it is absent the account branch skips under `OnlyWithAddresses` and
otherwise the nil preimage slice is dereferenced (`addrBytes[1:]` /
`blockBytes[1:]`), a panic — and build the display projection. -/
def processEntry (env : DumpEnv) (conf : DumpConfig) (e : TrieEntry) : DumpStep :=
  match e.value with
  | [] => .panicked "index out of range"
  | pfxByte :: payload =>
    match stateTypeFromPfx pfxByte with
    | .error m => .panicked m
    | .ok st =>
      if st = AccountState then
        match env.decodeAccount payload with
        | none => .panicked "rlp decode error"
        | some data =>
          match env.getKey e.key with
          | none =>
            if conf.OnlyWithAddresses then .skip
            else .panicked "slice bounds out of range"
          | some addrBytes =>
            let addr := BytesToAddress (addrBytes.drop 1)
            .emitAccount addr
              { Balance := toString data.Balance
                Nonce := data.Nonce
                Root := data.Root
                CodeHash := data.CodeHash
                Code := if !conf.SkipCode then env.codeOf addr else []
                Storage := if !conf.SkipStorage then env.storageOf addr else []
                SecureKey := e.key }
      else
        match env.decodePod payload with
        | none => .panicked "rlp decode error"
        | some data =>
          match env.getKey e.key with
          | none => .panicked "slice bounds out of range"
          | some blockBytes =>
            .emitPod (bytesToNat (blockBytes.drop 1))
              { GasLimit := data.GasLimit
                CurrentGasLimit := data.CurrentGasLimit
                Passengers := data.Passengers
                SecureKey := e.key }

/-- The dump iteration loop.  After each emission the Go code checks
`conf.Max > 0 && accounts >= conf.Max` (only the account counter!) and on
success records the next iterator key and stops; the `continue` taken by
a skipped account bypasses the check. -/
def dumpLoop (env : DumpEnv) (conf : DumpConfig) :
    List TrieEntry → List DumpItem → Nat → Nat → Nat → Except String DumpResult
  | [], items, accounts, pods, missing =>
    .ok { items := items, missingPreimages := missing, accounts := accounts,
          pods := pods, nextKey := none }
  | e :: rest, items, accounts, pods, missing =>
    match processEntry env conf e with
    | .panicked m => .error m
    | .skip => dumpLoop env conf rest items accounts pods (missing + 1)
    | .emitAccount addr data =>
      if 0 < conf.Max ∧ conf.Max ≤ accounts + 1 then
        .ok { items := items ++ [.account addr data], missingPreimages := missing,
              accounts := accounts + 1, pods := pods,
              nextKey := (rest.head?).map TrieEntry.key }
      else
        dumpLoop env conf rest (items ++ [.account addr data])
          (accounts + 1) pods missing
    | .emitPod block data =>
      if 0 < conf.Max ∧ conf.Max ≤ accounts then
        .ok { items := items ++ [.pod block data], missingPreimages := missing,
              accounts := accounts, pods := pods + 1,
              nextKey := (rest.head?).map TrieEntry.key }
      else
        dumpLoop env conf rest (items ++ [.pod block data])
          accounts (pods + 1) missing

/-- `StateDB.DumpToCollector`: iterate the trie entries, emitting to the
collector, and return the continuation key (inside the result). -/
def DumpToCollector (env : DumpEnv) (conf : DumpConfig)
    (entries : List TrieEntry) : Except String DumpResult :=
  dumpLoop env conf entries [] 0 0 0

/-! Concrete dump instance: two well-formed account entries, preimages
present, paginated with `Max = 1`. -/

/-- Collaborators for the concrete pagination run: preimages present,
every account payload decodes to a zeroed account. -/
def pagEnv : DumpEnv :=
  { getKey := fun k => some (97 :: k)
    decodeAccount := fun _ => some { Nonce := 0, Balance := 0, Root := [], CodeHash := [] }
    decodePod := fun _ => none
    codeOf := fun _ => []
    storageOf := fun _ => [] }

/-- Configuration for the concrete pagination run: `Max = 1`. -/
def pagConf : DumpConfig :=
  { SkipCode := true, SkipStorage := true, OnlyWithAddresses := false,
    Start := [], Max := 1 }

/-- Two account entries (discriminant byte `'a'`). -/
def pagEntries : List TrieEntry :=
  [{ key := [9], value := [97] }, { key := [10], value := [97] }]

/-- The completed run: one account emitted, continuation key `[10]`. -/
def pagResult : DumpResult :=
  { items := [.account (BytesToAddress [9])
      { Balance := toString (0 : Int), Nonce := 0, Root := [], CodeHash := [],
        Code := [], Storage := [], SecureKey := [9] }]
    missingPreimages := 0
    accounts := 1
    pods := 0
    nextKey := some [10] }

end Biternal

namespace Biternal

/-! ## Claim theorems: key scheme and pod object -/

/-- C3: constructing a pod object from data with `GasLimit = 0` yields an
effective gas limit of 1,000,000, for every block number and data value;
any positive gas limit is preserved unchanged, and no other data field is
touched. -/
theorem pod_default_gas_limit (db block : Nat) (data : StatePod) :
    (data.GasLimit = 0 → (newPodObject db block data).data.GasLimit = 1000000) ∧
    (0 < data.GasLimit → (newPodObject db block data).data = data) := by
  constructor
  · intro h
    simp [newPodObject, h]
  · intro h
    have : data.GasLimit ≠ 0 := Nat.pos_iff_ne_zero.mp h
    simp [newPodObject, this]

/-- C3 witness: concrete evaluations of both branches. -/
theorem pod_default_gas_limit_witness :
    (newPodObject 0 5 ⟨0, 7, []⟩).data.GasLimit = 1000000 ∧
    (newPodObject 0 5 ⟨42, 7, []⟩).data = ⟨42, 7, []⟩ :=
  ⟨(pod_default_gas_limit 0 5 ⟨0, 7, []⟩).1 rfl,
   (pod_default_gas_limit 0 5 ⟨42, 7, []⟩).2 (by decide)⟩

/-- C6: key round-trips.  `keyToAddress` inverts `accountKey` for every
address, `keyToBlock` inverts `podKey` for every non-negative block, the
pod key of block zero is the bare prefix byte (empty identifier bytes),
and the block's big-endian identifier bytes carry no leading zero byte. -/
theorem key_round_trip (a : Address) (b : Nat) :
    keyToAddress (accountKey a) = a ∧
    keyToBlock (podKey b) = b ∧
    podKey 0 = [112] ∧
    (0 < b → (natToBytes b).head? ≠ some 0) := by
  refine ⟨?_, ?_, ?_, ?_⟩
  · show BytesToAddress ((97 :: a.val).drop 1) = a
    simpa using BytesToAddress_val a
  · show bytesToNat ((112 :: natToBytes b).drop 1) = b
    simpa using bytesToNat_natToBytes b
  · simp [podKey, StateType.PreKey, PodState, natToBytes]
  · exact natToBytes_no_leading_zero b

/-- C6 witness: round-trip at a concrete address and block. -/
theorem key_round_trip_witness :
    keyToAddress (accountKey (BytesToAddress [1, 2, 3])) = BytesToAddress [1, 2, 3] ∧
    keyToBlock (podKey 1000) = 1000 ∧
    0 < 1000 ∧ (natToBytes 1000).head? ≠ some 0 := by
  obtain ⟨h1, h2, _, h4⟩ := key_round_trip (BytesToAddress [1, 2, 3]) 1000
  exact ⟨h1, h2, by decide, h4 (by decide)⟩

/-- C7: `Empty()` returns true exactly when the pod has no block assigned
and its gas limit is zero. -/
theorem pod_empty_iff (o : podObject) :
    o.Empty = true ↔ (o.block = none ∧ o.data.GasLimit = 0) := by
  unfold podObject.Empty
  cases h : o.block with
  | none => simp [Option.isNone]
  | some b => simp [Option.isNone]

/-- C8: the type-from-prefix lookup returns `AccountState` for byte `'a'`
(97) and `PodState` for byte `'p'` (112), and for every other byte it
signals the fatal panic (modelled as the `.error` branch carrying the Go
panic message) instead of returning a value. -/
theorem state_type_from_prefix_spec :
    stateTypeFromPfx 97 = .ok AccountState ∧
    stateTypeFromPfx 112 = .ok PodState ∧
    ∀ b : Nat, b ≠ 97 → b ≠ 112 → stateTypeFromPfx b = .error "unknown state type" := by
  refine ⟨rfl, rfl, ?_⟩
  intro b h97 h112
  simp [stateTypeFromPfx, h97, h112]

/-- C8 witness: the fatal branch at the concrete byte 0. -/
theorem state_type_from_prefix_witness :
    stateTypeFromPfx 0 = .error "unknown state type" :=
  state_type_from_prefix_spec.2.2 0 (by decide) (by decide)

/-- C5 (code evaluation): `podObject.DeepCopy` is a TODO stub returning the
nil interface value for every pod object and target context — it never
produces the independent clone the specification requires. -/
theorem pod_deep_copy_is_nil (o : podObject) (db : Nat) :
    o.DeepCopy db = none :=
  rfl

/-! ## Dirty-map association-list lemmas -/

theorem getD_setD_self (d : List (Nat × Int)) (h : Nat) (v : Int) :
    getD (setD d h v) h = v := by
  induction d with
  | nil => simp [setD, getD]
  | cons p rest ih =>
    by_cases hp : p.1 = h
    · simp [setD, hp, getD]
    · simp [setD, hp, getD, ih]

theorem getD_setD_ne (d : List (Nat × Int)) (h h' : Nat) (v : Int) (hne : h' ≠ h) :
    getD (setD d h v) h' = getD d h' := by
  have hne' : h ≠ h' := Ne.symm hne
  induction d with
  | nil => simp [setD, getD, hne']
  | cons p rest ih =>
    by_cases hp : p.1 = h
    · subst hp
      simp [setD, getD, hne']
    · simp [setD, hp, getD, ih]

theorem presentD_setD_self (d : List (Nat × Int)) (h : Nat) (v : Int) :
    presentD (setD d h v) h = true := by
  induction d with
  | nil => simp [setD, presentD]
  | cons p rest ih =>
    by_cases hp : p.1 = h
    · simp [setD, hp, presentD]
    · simp [setD, hp, presentD, ih]

theorem presentD_setD_ne (d : List (Nat × Int)) (h h' : Nat) (v : Int) (hne : h' ≠ h) :
    presentD (setD d h v) h' = presentD d h' := by
  have hne' : h ≠ h' := Ne.symm hne
  induction d with
  | nil => simp [setD, presentD, hne']
  | cons p rest ih =>
    by_cases hp : p.1 = h
    · subst hp
      simp [setD, presentD]
    · simp [setD, hp, presentD, ih]

theorem getD_delD_self (d : List (Nat × Int)) (h : Nat) :
    getD (delD d h) h = 0 := by
  induction d with
  | nil => simp [delD, getD]
  | cons p rest ih =>
    by_cases hp : p.1 = h
    · simp [delD, hp, ih]
    · simp [delD, hp, getD, ih]

theorem getD_delD_ne (d : List (Nat × Int)) (h h' : Nat) (hne : h' ≠ h) :
    getD (delD d h) h' = getD d h' := by
  have hne' : h ≠ h' := Ne.symm hne
  induction d with
  | nil => simp [delD]
  | cons p rest ih =>
    by_cases hp : p.1 = h
    · subst hp
      simp [delD, getD, hne', ih]
    · simp [delD, hp, getD, ih]

theorem presentD_delD_self (d : List (Nat × Int)) (h : Nat) :
    presentD (delD d h) h = false := by
  induction d with
  | nil => simp [delD, presentD]
  | cons p rest ih =>
    by_cases hp : p.1 = h
    · simp [delD, hp, ih]
    · simp [delD, hp, presentD, hp, ih]

theorem presentD_delD_ne (d : List (Nat × Int)) (h h' : Nat) (hne : h' ≠ h) :
    presentD (delD d h) h' = presentD d h' := by
  have hne' : h ≠ h' := Ne.symm hne
  induction d with
  | nil => simp [delD]
  | cons p rest ih =>
    by_cases hp : p.1 = h
    · subst hp
      simp [delD, presentD, hne', ih]
    · simp [delD, hp, presentD, ih]

/-! ## Dirty-count invariant lemmas -/

theorem countDirtied_append_last {σ : Type} (ws : List (JournalEntry σ))
    (e : JournalEntry σ) (h : Nat) :
    countDirtied (ws ++ [e]) h
      = countDirtied ws h + (if e.dirtied = some h then 1 else 0) := by
  simp [countDirtied, List.countP_append, List.countP_cons]

/-- Popping the last entry and applying its dirty-count decrement preserves
the dirty-map/entries agreement. -/
theorem dirtiesMatch_pop {σ : Type} (d : List (Nat × Int))
    (ws : List (JournalEntry σ)) (e : JournalEntry σ)
    (hm : dirtiesMatch d (ws ++ [e])) :
    dirtiesMatch (stepDecr d e.dirtied) ws := by
  cases hd : e.dirtied with
  | none =>
    intro h
    obtain ⟨hg, hp⟩ := hm h
    rw [countDirtied_append_last, hd] at hg hp
    simp only [reduceCtorEq, if_false, Nat.add_zero] at hg hp
    exact ⟨by simpa [stepDecr] using hg, by simpa [stepDecr] using hp⟩
  | some h0 =>
    intro h
    by_cases hh : h = h0
    · subst hh
      obtain ⟨hg, hp⟩ := hm h
      rw [countDirtied_append_last, hd] at hg
      simp only [if_pos rfl] at hg
      simp only [stepDecr, decrDelD]
      have hv : getD d h - 1 = (countDirtied ws h : Int) := by
        rw [hg]; push_cast; ring
      by_cases hz : getD d h - 1 = 0
      · have hcz : countDirtied ws h = 0 := by
          have := hv.symm.trans hz
          exact_mod_cast this
        rw [if_pos hz]
        refine ⟨?_, ?_⟩
        · rw [getD_delD_self, hcz]; simp
        · rw [presentD_delD_self, hcz]; simp
      · have hcz : countDirtied ws h ≠ 0 := by
          intro hc
          apply hz
          rw [hv, hc]; simp
        rw [if_neg hz]
        refine ⟨?_, ?_⟩
        · rw [getD_setD_self, hv]
        · rw [presentD_setD_self]
          simp [Nat.pos_of_ne_zero hcz]
    · obtain ⟨hg, hp⟩ := hm h
      rw [countDirtied_append_last, hd] at hg hp
      have hne : some h0 ≠ some h := by
        intro hc
        exact hh (Option.some.injEq _ _ ▸ hc : h0 = h).symm
      rw [if_neg hne, Nat.add_zero] at hg
      rw [if_neg hne, Nat.add_zero] at hp
      simp only [stepDecr, decrDelD]
      by_cases hz : getD d h0 - 1 = 0
      · rw [if_pos hz]
        exact ⟨by rw [getD_delD_ne d h0 h hh, hg],
               by rw [presentD_delD_ne d h0 h hh]; exact hp⟩
      · rw [if_neg hz]
        exact ⟨by rw [getD_setD_ne d h0 h _ hh, hg],
               by rw [presentD_setD_ne d h0 h _ hh]; exact hp⟩

/-- Folding the revert loop over a reversed suffix preserves the
dirty-map/entries agreement with respect to the remaining prefix. -/
theorem dirtiesMatch_revert_list {σ : Type} :
    ∀ (zs xs : List (JournalEntry σ)) (d : List (Nat × Int)) (statedb : σ),
      dirtiesMatch d (xs ++ zs.reverse) →
      dirtiesMatch ((zs.foldl revertStep (statedb, d)).2) xs := by
  intro zs
  induction zs with
  | nil =>
    intro xs d db hm
    simpa using hm
  | cons z zs ih =>
    intro xs d db hm
    rw [List.foldl_cons]
    have hm' : dirtiesMatch (stepDecr d z.dirtied) (xs ++ zs.reverse) := by
      apply dirtiesMatch_pop (e := z)
      have hxs : xs ++ (z :: zs).reverse = (xs ++ zs.reverse) ++ [z] := by
        simp
      rw [hxs] at hm
      exact hm
    exact ih xs (stepDecr d z.dirtied) (z.revert db) hm'

/-- `journal.append` preserves the dirty-map/entries agreement. -/
theorem dirtiesMatch_journal_append {σ : Type} (j : Journal σ) (e : JournalEntry σ)
    (hm : dirtiesMatch j.dirties j.entries) :
    dirtiesMatch (j.append e).dirties (j.append e).entries := by
  unfold Journal.append
  cases hd : e.dirtied with
  | none =>
    intro h
    obtain ⟨hg, hp⟩ := hm h
    rw [countDirtied_append_last, hd]
    simp only [reduceCtorEq, if_false, Nat.add_zero]
    exact ⟨hg, hp⟩
  | some h0 =>
    intro h
    obtain ⟨hg, hp⟩ := hm h
    rw [countDirtied_append_last, hd]
    by_cases hh : h = h0
    · subst hh
      simp only [if_pos rfl, incrD]
      refine ⟨?_, ?_⟩
      · rw [getD_setD_self, hg]; push_cast; ring
      · rw [presentD_setD_self]; simp
    · have hne : some h0 ≠ some h := fun hc =>
        hh (Option.some.injEq _ _ ▸ hc : h0 = h).symm
      simp only [if_neg hne, Nat.add_zero, incrD]
      exact ⟨by rw [getD_setD_ne _ _ _ _ hh]; exact hg,
             by rw [presentD_setD_ne _ _ _ _ hh]; exact hp⟩

/-- `journal.revert` preserves the dirty-map/entries agreement. -/
theorem dirtiesMatch_journal_revert {σ : Type} (j : Journal σ) (statedb : σ) (s : Nat)
    (hm : dirtiesMatch j.dirties j.entries) :
    dirtiesMatch ((j.revert statedb s).1.dirties) ((j.revert statedb s).1.entries) := by
  unfold Journal.revert
  apply dirtiesMatch_revert_list ((j.entries.drop s).reverse) (j.entries.take s)
  rw [List.reverse_reverse, List.take_append_drop]
  exact hm

/-- Every run of `append`/`revert` operations preserves the agreement. -/
theorem dirtiesMatch_run_aux {σ : Type} :
    ∀ (ops : List (JOp σ)) (statedb : σ) (j : Journal σ),
      (∀ op ∈ ops, op.isDirtyOp = false) →
      dirtiesMatch j.dirties j.entries →
      dirtiesMatch ((ops.foldl applyOp (statedb, j)).2.dirties)
        ((ops.foldl applyOp (statedb, j)).2.entries) := by
  intro ops
  induction ops with
  | nil =>
    intro db j _ hm
    simpa using hm
  | cons op ops ih =>
    intro db j hnd hm
    rw [List.foldl_cons]
    have hops : ∀ o ∈ ops, o.isDirtyOp = false :=
      fun o ho => hnd o (List.mem_cons_of_mem _ ho)
    cases op with
    | appendOp e =>
      exact ih _ _ hops (dirtiesMatch_journal_append j e hm)
    | revertOp s =>
      exact ih _ _ hops (dirtiesMatch_journal_revert j db s hm)
    | dirtyOp h =>
      have := hnd (.dirtyOp h) (List.mem_cons_self _ _)
      simp [JOp.isDirtyOp] at this

/-- C1: snapshot composition.  For checkpoints `s1 < s2 < length`,
reverting to `s2` and then to `s1` leaves the journal (entry sequence and
dirty-count map) and the state in exactly the state produced by reverting
directly to `s1`; `revert` processes entries from `length-1` down to the
checkpoint and truncates to the checkpoint length. -/
theorem journal_revert_compose {σ : Type} (j : Journal σ) (statedb : σ) (s1 s2 : Nat)
    (h1 : s1 < s2) (h2 : s2 < j.entries.length) :
    (j.revert statedb s2).1.revert ((j.revert statedb s2).2) s1
      = j.revert statedb s1 := by
  have hlen : (j.entries.take s2).length = s2 := by
    rw [List.length_take]
    omega
  have hsplit : j.entries.drop s1 = (j.entries.take s2).drop s1 ++ j.entries.drop s2 := by
    conv_lhs => rw [← List.take_append_drop s2 j.entries]
    rw [List.drop_append_eq_append_drop, hlen]
    have hz : s1 - s2 = 0 := by omega
    rw [hz, List.drop_zero]
  have htake : (j.entries.take s2).take s1 = j.entries.take s1 := by
    rw [List.take_take]
    congr 1
    omega
  have hfold : ((j.entries.drop s1).reverse).foldl revertStep (statedb, j.dirties)
      = (((j.entries.take s2).drop s1).reverse).foldl revertStep
          (((j.entries.drop s2).reverse).foldl revertStep (statedb, j.dirties)) := by
    rw [hsplit, List.reverse_append, List.foldl_append]
  unfold Journal.revert
  simp only [htake, hfold]

/-- C1 witness: composition at a concrete three-entry journal over `Nat`
states, with checkpoints `1 < 2 < 3`. -/
theorem journal_revert_compose_witness :
    1 < 2 ∧
    2 < (Journal.entries (σ := Nat)
      ⟨[⟨fun n => n + 1, some 3⟩, ⟨fun n => n * 2, none⟩, ⟨fun n => n + 5, some 3⟩],
        [(3, 2)]⟩).length ∧
    ((⟨[⟨fun n => n + 1, some 3⟩, ⟨fun n => n * 2, none⟩, ⟨fun n => n + 5, some 3⟩],
        [(3, 2)]⟩ : Journal Nat).revert 0 2).1.revert
      (((⟨[⟨fun n => n + 1, some 3⟩, ⟨fun n => n * 2, none⟩, ⟨fun n => n + 5, some 3⟩],
        [(3, 2)]⟩ : Journal Nat).revert 0 2).2) 1
      = (⟨[⟨fun n => n + 1, some 3⟩, ⟨fun n => n * 2, none⟩, ⟨fun n => n + 5, some 3⟩],
        [(3, 2)]⟩ : Journal Nat).revert 0 1 :=
  ⟨by decide, by simp,
   journal_revert_compose _ 0 1 2 (by decide) (by simp)⟩

/-- C2 counterexample: the claim quantifies over every sequence of journal
operations including the `dirty` hack, but `dirty` increments a count
without appending an entry: after the single operation `dirty(7)` the map
holds count 1 for hash 7 while the entry sequence is empty. -/
theorem journal_dirty_accounting_counterexample :
    ¬ dirtiesMatch ((runOps (σ := Nat) 0 [.dirtyOp 7]).2.dirties)
        ((runOps (σ := Nat) 0 [.dirtyOp 7]).2.entries) := by
  intro hm
  have h7 := (hm 7).1
  simp [runOps, applyOp, Journal.dirty, newJournal, incrD, getD, setD,
    countDirtied] at h7

/-- C2 amended: after every sequence of `append` and `revert` operations
(the `dirty` hack excluded), the journal's dirties map equals the multiset
of non-nil `dirtied()` results over the current entries: each hash's count
is the number of current entries dirtying it, and the map slot exists
exactly when that number is positive (so it is removed at zero). -/
theorem journal_dirty_accounting_amended {σ : Type} (statedb : σ) (ops : List (JOp σ))
    (hnd : ∀ op ∈ ops, op.isDirtyOp = false) :
    dirtiesMatch ((runOps statedb ops).2.dirties) ((runOps statedb ops).2.entries) := by
  unfold runOps
  apply dirtiesMatch_run_aux ops statedb (newJournal σ) hnd
  intro h
  simp [newJournal, getD, presentD, countDirtied]

/-- C2 witness: the invariant after appending two entries dirtying hash 3
and reverting to checkpoint 1. -/
theorem journal_dirty_accounting_amended_witness :
    dirtiesMatch
      ((runOps (σ := Nat) 0
        [.appendOp ⟨fun n => n, some 3⟩, .appendOp ⟨fun n => n + 1, some 3⟩,
          .revertOp 1]).2.dirties)
      ((runOps (σ := Nat) 0
        [.appendOp ⟨fun n => n, some 3⟩, .appendOp ⟨fun n => n + 1, some 3⟩,
          .revertOp 1]).2.entries) :=
  journal_dirty_accounting_amended 0 _ (by
    intro op hop
    simp only [List.mem_cons, List.not_mem_nil, or_false] at hop
    rcases hop with rfl | rfl | rfl <;> rfl)

/-! ## RLP round-trip lemmas -/

theorem rlpEncodeLength_len_pos (len offset : Nat) :
    0 < (rlpEncodeLength len offset).length := by
  unfold rlpEncodeLength
  split <;> simp

theorem rlpEncodeBytes_len_pos (b : List Nat) :
    0 < (rlpEncodeBytes b).length := by
  unfold rlpEncodeBytes
  split
  · next hs => omega
  · rw [List.length_append]
    have := rlpEncodeLength_len_pos b.length 128
    omega

/-- Reading back a short byte-string item (payload below 56 bytes). -/
theorem rlpReadItem_encodeBytes (b rest : List Nat) (hlen : b.length < 56) :
    rlpReadItem (rlpEncodeBytes b ++ rest) = some (false, b, rest) := by
  unfold rlpEncodeBytes
  by_cases hs : b.length = 1 ∧ b.headI < 128
  · rw [if_pos hs]
    obtain ⟨h1, h128⟩ := hs
    match b, h1 with
    | [d], _ =>
      simp only [List.headI] at h128
      show rlpReadItem (d :: rest) = some (false, [d], rest)
      simp only [rlpReadItem]
      rw [if_pos h128]
  · rw [if_neg hs]
    have hE : rlpEncodeLength b.length 128 = [128 + b.length] := by
      unfold rlpEncodeLength
      rw [if_pos hlen]
    rw [hE]
    simp only [List.singleton_append, List.cons_append, List.nil_append]
    simp only [rlpReadItem]
    have hc1 : ¬ (128 + b.length < 128) := by omega
    have hc2 : 128 + b.length < 184 := by omega
    rw [if_neg hc1, if_pos hc2]
    have hn : 128 + b.length - 128 = b.length := by omega
    rw [hn]
    rw [if_neg (by rw [List.length_append]; omega)]
    rw [List.take_left, List.drop_left]

/-- Reading back a list item, for any payload length. -/
theorem rlpReadItem_encodeList (p rest : List Nat) :
    rlpReadItem (rlpEncodeList p ++ rest) = some (true, p, rest) := by
  unfold rlpEncodeList rlpEncodeLength
  by_cases hlen : p.length < 56
  · rw [if_pos hlen]
    simp only [List.singleton_append, List.cons_append, List.nil_append]
    simp only [rlpReadItem]
    have hc1 : ¬ (192 + p.length < 128) := by omega
    have hc2 : ¬ (192 + p.length < 184) := by omega
    have hc3 : ¬ (192 + p.length < 192) := by omega
    have hc4 : 192 + p.length < 248 := by omega
    rw [if_neg hc1, if_neg hc2, if_neg hc3, if_pos hc4]
    have hn : 192 + p.length - 192 = p.length := by omega
    rw [hn]
    rw [if_neg (by rw [List.length_append]; omega)]
    rw [List.take_left, List.drop_left]
  · rw [if_neg hlen]
    have hpos : 0 < p.length := by omega
    have hll : 0 < (natToBytes p.length).length :=
      List.length_pos.mpr (natToBytes_nonzero_ne_nil _ hpos)
    simp only [List.cons_append, List.append_assoc]
    simp only [rlpReadItem]
    have hc1 : ¬ (192 + 55 + (natToBytes p.length).length < 128) := by omega
    have hc2 : ¬ (192 + 55 + (natToBytes p.length).length < 184) := by omega
    have hc3 : ¬ (192 + 55 + (natToBytes p.length).length < 192) := by omega
    have hc4 : ¬ (192 + 55 + (natToBytes p.length).length < 248) := by omega
    rw [if_neg hc1, if_neg hc2, if_neg hc3, if_neg hc4]
    have hn : 192 + 55 + (natToBytes p.length).length - 247
        = (natToBytes p.length).length := by omega
    rw [hn]
    rw [if_neg (by rw [List.length_append]; omega)]
    rw [List.take_left, List.drop_left, bytesToNat_natToBytes]
    rw [if_neg (by rw [List.length_append]; omega)]
    rw [List.take_left, List.drop_left]

/-- Unfolding of the passenger parser at positive fuel on nonempty bytes. -/
theorem parseStringsF_succ (fuel : Nat) (bs : List Nat) (hne : bs ≠ []) :
    parseStringsF (fuel + 1) bs =
      match rlpReadItem bs with
      | some (false, payload, rest) =>
        match parseStringsF fuel rest with
        | some items => some (payload :: items)
        | none => none
      | _ => none := by
  conv_lhs => unfold parseStringsF
  rw [if_neg hne]

/-- Parsing the concatenated encodings of short byte strings returns the
strings, given enough fuel. -/
theorem parseStringsF_round :
    ∀ (items : List (List Nat)) (fuel : Nat),
      (∀ b ∈ items, b.length < 56) →
      ((items.map rlpEncodeBytes).flatten).length ≤ fuel →
      parseStringsF fuel ((items.map rlpEncodeBytes).flatten) = some items := by
  intro items
  induction items with
  | nil =>
    intro fuel _ _
    unfold parseStringsF
    simp
  | cons a items ih =>
    intro fuel hall hfuel
    rw [List.map_cons, List.flatten_cons]
    rw [List.map_cons, List.flatten_cons, List.length_append] at hfuel
    have hpos := rlpEncodeBytes_len_pos a
    have hne : rlpEncodeBytes a ++ (items.map rlpEncodeBytes).flatten ≠ [] := by
      intro hc
      rw [List.append_eq_nil] at hc
      rw [hc.1] at hpos
      simp at hpos
    cases fuel with
    | zero => omega
    | succ fuel =>
      rw [parseStringsF_succ fuel _ hne]
      simp only [rlpReadItem_encodeBytes a _ (hall a (by simp))]
      simp only [ih fuel (fun b hb => hall b (by simp [hb])) (by omega)]

/-- Converting each passenger's raw bytes back through `BytesToAddress`
recovers the typed passengers. -/
theorem map_bytesToAddress_val (l : List Address) :
    (l.map (fun p => p.val)).map BytesToAddress = l := by
  induction l with
  | nil => rfl
  | cons a l ih =>
    simp only [List.map_cons, ih, BytesToAddress_val]

/-- C10: slim-pod round trip.  For every 64-bit `GasLimit` and
`CurrentGasLimit` and every ordered list of fixed-length addresses,
decoding the bytes produced by `SlimPodRLP` via `FullStatePod` yields a
`StatePod` with the same gas limits and the same passengers in the same
order. -/
theorem slim_pod_round_trip (g c : Nat) (ps : List Address)
    (hg : g < 2 ^ 64) (hc : c < 2 ^ 64) :
    FullStatePod (SlimPodRLP g c ps) = some ⟨g, c, ps⟩ := by
  have h256 : (256 : Nat) ^ 8 = 2 ^ 64 := by norm_num
  have hglen : (natToBytes g).length < 56 := by
    have := natToBytes_length_le 8 g (by omega)
    omega
  have hclen : (natToBytes c).length < 56 := by
    have := natToBytes_length_le 8 c (by omega)
    omega
  have hall : ∀ b ∈ ps.map (fun p => p.val), b.length < 56 := by
    intro b hb
    simp only [List.mem_map] at hb
    obtain ⟨p, _, rfl⟩ := hb
    rw [p.property]
    norm_num [AddressLength]
  unfold SlimPodRLP SlimPod podToBytes FullStatePod FullPod rlpDecodePod
  simp only
  have houter := rlpReadItem_encodeList
    (rlpEncodeNat g ++ (rlpEncodeNat c ++
      rlpEncodeList (((ps.map (fun p => p.val)).map rlpEncodeBytes).flatten))) []
  rw [List.append_nil] at houter
  have hinner := rlpReadItem_encodeList
    (((ps.map (fun p => p.val)).map rlpEncodeBytes).flatten) []
  rw [List.append_nil] at hinner
  simp only [houter]
  simp only [rlpEncodeNat]
  simp only [rlpReadItem_encodeBytes (natToBytes g) _ hglen]
  simp only [rlpReadItem_encodeBytes (natToBytes c) _ hclen]
  simp only [hinner]
  unfold parseStrings
  simp only [parseStringsF_round (ps.map (fun p => p.val)) _ hall (le_refl _)]
  simp only [bytesToNat_natToBytes, map_bytesToAddress_val]

/-- C10 witness: round trip at a concrete pod. -/
theorem slim_pod_round_trip_witness :
    7 < 2 ^ 64 ∧ 0 < 2 ^ 64 ∧
    FullStatePod (SlimPodRLP 7 0 [BytesToAddress [1]])
      = some ⟨7, 0, [BytesToAddress [1]]⟩ :=
  ⟨by norm_num, by norm_num,
   slim_pod_round_trip 7 0 [BytesToAddress [1]] (by norm_num) (by norm_num)⟩

/-! ## Dump theorems

`[195, 5, 128, 192]` is the canonical slim encoding of the pod
`{GasLimit := 5, CurrentGasLimit := 0, Passengers := []}` (an RLP list
holding the byte 5, the empty string, and the empty inner list), so the
concrete trie values below are well-formed: `FullStatePod` decodes them. -/

/-- C4 (code evaluation): on a trie holding a single well-formed pod entry
whose key preimage is absent (`GetKey` returns none), the dump does not
continue keyless — it dereferences the nil preimage slice
(`blockBytes[1:]`) and panics, aborting the whole export. -/
theorem dump_missing_preimage_panics :
    DumpToCollector
      { getKey := fun _ => none
        decodeAccount := fun _ => none
        decodePod := fun bs => FullStatePod bs
        codeOf := fun _ => []
        storageOf := fun _ => [] }
      { SkipCode := false, SkipStorage := false, OnlyWithAddresses := false,
        Start := [], Max := 0 }
      [{ key := [1, 2], value := 112 :: [195, 5, 128, 192] }]
      = .error "slice bounds out of range" := by
  rfl

/-- C9 counterexample: a trie holding exactly two well-formed pod entries
(preimages present), dumped with `Max = 1`, emits both pods and returns no
continuation key — the `Max` check compares only the account counter, so
the dump does not stop after the configured maximum count of items. -/
theorem dump_pagination_counterexample :
    (DumpToCollector
      { getKey := fun k => some (112 :: k)
        decodeAccount := fun _ => none
        decodePod := fun bs => FullStatePod bs
        codeOf := fun _ => []
        storageOf := fun _ => [] }
      { SkipCode := false, SkipStorage := false, OnlyWithAddresses := false,
        Start := [], Max := 1 }
      [{ key := [1], value := 112 :: [195, 5, 128, 192] },
       { key := [2], value := 112 :: [195, 5, 128, 192] }]).map
      (fun r => (r.items.length, r.nextKey))
      = .ok (2, none) := by
  rfl

/-- The dump loop's pagination invariant, generalised over the running
account counter. -/
theorem dumpLoop_pagination (env : DumpEnv) (conf : DumpConfig) :
    ∀ (entries : List TrieEntry) (items : List DumpItem)
      (accounts pods missing : Nat) (r : DumpResult),
      (0 < conf.Max → accounts < conf.Max) →
      dumpLoop env conf entries items accounts pods missing = .ok r →
      (conf.Max = 0 → r.nextKey = none) ∧
      (0 < conf.Max → r.accounts ≤ conf.Max ∧
        ∀ k, r.nextKey = some k → r.accounts = conf.Max ∧
          ∃ pre e post, entries = pre ++ e :: post ∧ e.key = k) := by
  intro entries
  induction entries with
  | nil =>
    intro items accounts pods missing r hinv hok
    simp only [dumpLoop, Except.ok.injEq] at hok
    subst hok
    refine ⟨fun _ => rfl, fun hM => ⟨Nat.le_of_lt (hinv hM), ?_⟩⟩
    intro k hk
    simp at hk
  | cons e rest ih =>
    intro items accounts pods missing r hinv hok
    cases hstep : processEntry env conf e with
    | panicked m =>
      simp only [dumpLoop, hstep] at hok
      exact Except.noConfusion hok
    | skip =>
      simp only [dumpLoop, hstep] at hok
      obtain ⟨h0, hpos⟩ := ih items accounts pods (missing + 1) r hinv hok
      refine ⟨h0, fun hM => ?_⟩
      obtain ⟨hle, hk⟩ := hpos hM
      refine ⟨hle, fun k hkk => ?_⟩
      obtain ⟨heq, pre, e', post, hsplit, hkey⟩ := hk k hkk
      exact ⟨heq, e :: pre, e', post, by rw [hsplit, List.cons_append], hkey⟩
    | emitAccount addr data =>
      simp only [dumpLoop, hstep] at hok
      by_cases hstop : 0 < conf.Max ∧ conf.Max ≤ accounts + 1
      · rw [if_pos hstop] at hok
        simp only [Except.ok.injEq] at hok
        subst hok
        have hMpos := hstop.1
        have hlt := hinv hMpos
        refine ⟨fun h0 => absurd h0 (by omega), fun _ => ⟨?_, ?_⟩⟩
        · show accounts + 1 ≤ conf.Max
          omega
        · intro k hk
          refine ⟨by show accounts + 1 = conf.Max; omega, ?_⟩
          cases rest with
          | nil => simp at hk
          | cons e' post =>
            have hk' : some e'.key = some k := hk
            exact ⟨[e], e', post, rfl, by injection hk'⟩
      · rw [if_neg hstop] at hok
        have hinv' : 0 < conf.Max → accounts + 1 < conf.Max := by
          intro hM
          rcases Nat.lt_or_ge (accounts + 1) conf.Max with h | h
          · exact h
          · exact absurd ⟨hM, h⟩ hstop
        obtain ⟨h0, hpos⟩ := ih _ (accounts + 1) pods missing r hinv' hok
        refine ⟨h0, fun hM => ?_⟩
        obtain ⟨hle, hk⟩ := hpos hM
        refine ⟨hle, fun k hkk => ?_⟩
        obtain ⟨heq, pre, e', post, hsplit, hkey⟩ := hk k hkk
        exact ⟨heq, e :: pre, e', post, by rw [hsplit, List.cons_append], hkey⟩
    | emitPod block data =>
      simp only [dumpLoop, hstep] at hok
      by_cases hstop : 0 < conf.Max ∧ conf.Max ≤ accounts
      · exact absurd hstop.2 (Nat.not_le.mpr (hinv hstop.1))
      · rw [if_neg hstop] at hok
        obtain ⟨h0, hpos⟩ := ih _ accounts (pods + 1) missing r hinv hok
        refine ⟨h0, fun hM => ?_⟩
        obtain ⟨hle, hk⟩ := hpos hM
        refine ⟨hle, fun k hkk => ?_⟩
        obtain ⟨heq, pre, e', post, hsplit, hkey⟩ := hk k hkk
        exact ⟨heq, e :: pre, e', post, by rw [hsplit, List.cons_append], hkey⟩

/-- C9 amended: pagination counts only account items.  When a dump run
completes, `Max = 0` means it iterated to the end with no continuation
key; `Max > 0` bounds the emitted account count by `Max` (pods do not
count toward the limit), and whenever a continuation key is returned, the
account count reached exactly `Max` and the key is the key of a trie
entry (the next one after the stop); when no entries remain the
continuation key is nil. -/
theorem dump_pagination_amended (env : DumpEnv) (conf : DumpConfig)
    (entries : List TrieEntry) (r : DumpResult)
    (hok : DumpToCollector env conf entries = .ok r) :
    (conf.Max = 0 → r.nextKey = none) ∧
    (0 < conf.Max → r.accounts ≤ conf.Max ∧
      ∀ k, r.nextKey = some k → r.accounts = conf.Max ∧
        ∃ pre e post, entries = pre ++ e :: post ∧ e.key = k) :=
  dumpLoop_pagination env conf entries [] 0 0 0 r (fun hM => hM) hok

/-- C9 amended witness: two well-formed account entries with `Max = 1`
stop after the first account with the second entry's key as continuation. -/
theorem dump_pagination_amended_witness :
    (pagConf.Max = 0 → pagResult.nextKey = none) ∧
    (0 < pagConf.Max → pagResult.accounts ≤ pagConf.Max ∧
      ∀ k, pagResult.nextKey = some k → pagResult.accounts = pagConf.Max ∧
        ∃ pre e post, pagEntries = pre ++ e :: post ∧ e.key = k) :=
  dump_pagination_amended pagEnv pagConf pagEntries pagResult rfl

end Biternal
